import Mathlib

/-!
Verification of the mtgPriceChecker core (docs/app.js) against its
specification.

The embedding models the dashboard's aggregation/statistics/ranking engine:
  * JS string comparison (`<=` on strings, `localeCompare` on ASCII dates,
    default `Array.sort()` on date keys) as code-unit lexicographic order;
  * JS numbers as rationals (the prices and deltas exercised here are exact
    in binary floating point, so rational arithmetic agrees);
  * JS `Date` / `Date.UTC` millisecond arithmetic as proleptic-Gregorian
    epoch-day arithmetic (ECMAScript MakeDay plus the UTC date accessors),
    with `Option` standing for an Invalid Date (NaN time value);
  * JS `Map` as an association list (insertion order, unique keys kept in
    place on update);
  * the stable comparator `Array.prototype.sort` as insertion sort.
-/

/-- JavaScript WhiteSpace ∪ LineTerminator, the character class `\s` of a JS
regular expression (also used by `String.prototype.trim`). -/
def isJsWs (c : Char) : Bool :=
  c = ' ' || c = '\t' || c = '\n' || c = '\u000B' || c = '\u000C' || c = '\r' ||
  c = '\u00A0' || c = '\u1680' || ('\u2000' ≤ c && c ≤ '\u200A') ||
  c = '\u2028' || c = '\u2029' || c = '\u202F' || c = '\u205F' ||
  c = '\u3000' || c = '\uFEFF'

/-- JavaScript LineTerminator characters, which `.` in a JS regex (without
the `s` flag) does not match. -/
def isLineTerm (c : Char) : Bool :=
  c = '\n' || c = '\r' || c = '\u2028' || c = '\u2029'

/-- JS `<` on strings: code-unit lexicographic order on the character
lists.  (The strings this program compares are ASCII, where code units
and code points agree.) -/
def jsLtL : List Char → List Char → Bool
  | [], [] => false
  | [], _ :: _ => true
  | _ :: _, [] => false
  | a :: as, b :: bs =>
    if a.toNat < b.toNat then true
    else if b.toNat < a.toNat then false
    else jsLtL as bs

/-- JS `a < b` on strings. -/
def jsLtS (a b : String) : Bool := jsLtL a.data b.data

/-- JS `a <= b` on strings: the negation of `b < a`. -/
def jsLeS (a b : String) : Bool := ! jsLtL b.data a.data

theorem jsLtL_irrefl (l : List Char) : jsLtL l l = false := by
  induction l with
  | nil => rfl
  | cons c t ih => simp [jsLtL, ih]

theorem jsLtL_trans {a b c : List Char} (hab : jsLtL a b = true)
    (hbc : jsLtL b c = true) : jsLtL a c = true := by
  induction a generalizing b c with
  | nil =>
    cases b with
    | nil => simp [jsLtL] at hab
    | cons y bs =>
      cases c with
      | nil => simp [jsLtL] at hbc
      | cons z cs => simp [jsLtL]
  | cons x as ih =>
    cases b with
    | nil => simp [jsLtL] at hab
    | cons y bs =>
      cases c with
      | nil => simp [jsLtL] at hbc
      | cons z cs =>
        simp only [jsLtL] at hab hbc ⊢
        by_cases hxy : x.toNat < y.toNat
        · by_cases hyz : y.toNat < z.toNat
          · simp [Nat.lt_trans hxy hyz]
          · simp only [if_neg hyz] at hbc
            by_cases hzy : z.toNat < y.toNat
            · simp [hzy] at hbc
            · have hyz' : y.toNat = z.toNat := Nat.le_antisymm
                (Nat.le_of_not_lt hzy) (Nat.le_of_not_lt hyz)
              simp [hyz' ▸ hxy]
        · simp only [if_neg hxy] at hab
          by_cases hyx : y.toNat < x.toNat
          · simp [hyx] at hab
          · have hxy' : x.toNat = y.toNat := Nat.le_antisymm
              (Nat.le_of_not_lt hyx) (Nat.le_of_not_lt hxy)
            by_cases hyz : y.toNat < z.toNat
            · simp [hxy' ▸ hyz]
            · simp only [if_neg hyz] at hbc
              by_cases hzy : z.toNat < y.toNat
              · simp [hzy] at hbc
              · simp only [if_neg hyx] at hab
                simp only [if_neg hzy] at hbc
                have hxz : ¬ x.toNat < z.toNat := by omega
                have hzx : ¬ z.toNat < x.toNat := by omega
                simp only [if_neg hxz, if_neg hzx]
                exact ih hab hbc

theorem char_eq_of_toNat_eq {a b : Char} (h : a.toNat = b.toNat) : a = b := by
  apply Char.ext
  exact UInt32.toNat.inj h

theorem jsLtL_trichot (a b : List Char) :
    jsLtL a b = true ∨ a = b ∨ jsLtL b a = true := by
  induction a generalizing b with
  | nil =>
    cases b with
    | nil => exact Or.inr (Or.inl rfl)
    | cons y bs => exact Or.inl rfl
  | cons x as ih =>
    cases b with
    | nil => exact Or.inr (Or.inr rfl)
    | cons y bs =>
      by_cases hxy : x.toNat < y.toNat
      · exact Or.inl (by simp [jsLtL, hxy])
      · by_cases hyx : y.toNat < x.toNat
        · exact Or.inr (Or.inr (by simp [jsLtL, hyx]))
        · have hx : x = y := char_eq_of_toNat_eq
            (Nat.le_antisymm (Nat.le_of_not_lt hyx) (Nat.le_of_not_lt hxy))
          subst hx
          rcases ih bs with h | h | h
          · exact Or.inl (by simp [jsLtL, h])
          · exact Or.inr (Or.inl (by rw [h]))
          · exact Or.inr (Or.inr (by simp [jsLtL, h]))

theorem jsLtL_asymm {a b : List Char} (h : jsLtL a b = true) :
    jsLtL b a = false := by
  by_contra hc
  have hba : jsLtL b a = true := by
    cases hx : jsLtL b a with
    | false => exact absurd hx hc
    | true => rfl
  have : jsLtL a a = true := jsLtL_trans h hba
  rw [jsLtL_irrefl] at this
  exact Bool.false_ne_true this

/-- The order used on date strings throughout: JS `a <= b`. -/
def strLe (a b : String) : Prop := jsLeS a b = true

/-- JS `a < b` on date strings, as a proposition. -/
def strLt (a b : String) : Prop := jsLtS a b = true

instance : DecidableRel strLe := fun a b => instDecidableEqBool (jsLeS a b) true

instance : DecidableRel strLt := fun a b => instDecidableEqBool (jsLtS a b) true

theorem strLe_refl (a : String) : strLe a a := by
  simp [strLe, jsLeS, jsLtL_irrefl]

theorem strLe_total (a b : String) : strLe a b ∨ strLe b a := by
  rcases jsLtL_trichot a.data b.data with h | h | h
  · exact Or.inl (by simp [strLe, jsLeS, jsLtL_asymm h])
  · exact Or.inl (by simp [strLe, jsLeS, h, jsLtL_irrefl])
  · exact Or.inr (by simp [strLe, jsLeS, jsLtL_asymm h])

theorem strLe_trans {a b c : String} (hab : strLe a b) (hbc : strLe b c) :
    strLe a c := by
  simp only [strLe, jsLeS, Bool.not_eq_true'] at hab hbc ⊢
  by_contra hc
  have hca : jsLtL c.data a.data = true := by
    cases hx : jsLtL c.data a.data with
    | false => exact absurd hx hc
    | true => rfl
  rcases jsLtL_trichot a.data b.data with h | h | h
  · have := jsLtL_trans hca h
    rw [hbc] at this
    exact Bool.false_ne_true this
  · rw [← h] at hbc
    rw [hbc] at hca
    exact Bool.false_ne_true hca
  · rw [hab] at h
    exact Bool.false_ne_true h

theorem strLt_of_strLe_of_ne {a b : String} (hle : strLe a b) (hne : a ≠ b) :
    strLt a b := by
  rcases jsLtL_trichot a.data b.data with h | h | h
  · exact h
  · exact absurd (congrArg String.mk h) (by simpa using hne)
  · simp [strLe, jsLeS, h] at hle

theorem strLt_asymm {a b : String} (h₁ : strLt a b) (h₂ : strLt b a) : False := by
  simp only [strLt, jsLtS] at h₁ h₂
  have := jsLtL_asymm h₁
  rw [h₂] at this
  simp at this

theorem strLt_ne {a b : String} (h : strLt a b) : a ≠ b := by
  intro he
  subst he
  simp only [strLt, jsLtS] at h
  have := jsLtL_irrefl a.data
  rw [h] at this
  simp at this

/-- One `{date, price}` record of a price series (app.js data model).
Dates are the raw YYYY-MM-DD strings, prices are JS numbers, modelled as
rationals. -/
structure PricePoint where
  date : String
  price : ℚ
deriving DecidableEq

/-- The comparator of `sortSeries`: `a.date.localeCompare(b.date) <= 0`,
which on the ASCII date strings of this program is code-unit order. -/
def dateLe (a b : PricePoint) : Prop := strLe a.date b.date

instance : DecidableRel dateLe := fun a b =>
  instDecidableEqBool (jsLeS a.date b.date) true

instance : IsTotal PricePoint dateLe := ⟨fun a b => strLe_total a.date b.date⟩

instance : IsTrans PricePoint dateLe := ⟨fun _ _ _ => strLe_trans⟩

instance : IsTotal String strLe := ⟨strLe_total⟩

instance : IsTrans String strLe := ⟨fun _ _ _ => strLe_trans⟩

/-- app.js `sortSeries`: `[...series].sort((a, b) =>
a.date.localeCompare(b.date))` — a stable sort by date, modelled as
insertion sort (stable, and `Array.prototype.sort` is specified stable). -/
def sortSeries (series : List PricePoint) : List PricePoint :=
  List.insertionSort dateLe series

/-- app.js `getClosestOnOrBefore`: scan from the end backwards and return
the first point whose date is `<=` the target (JS string comparison). -/
def getClosestOnOrBefore (series : List PricePoint) (targetDateISO : String) :
    Option PricePoint :=
  series.reverse.find? (fun pt => jsLeS pt.date targetDateISO)

/-! ### Date arithmetic

app.js turns a YYYY-MM-DD string into a UTC millisecond value with
`Date.UTC`, shifts it by whole days, and reads it back with
`getUTCFullYear/getUTCMonth/getUTCDate`.  Milliseconds are always a whole
multiple of 86400000 here, so the model works in epoch days.  The
civil-calendar conversions below are the standard proleptic-Gregorian
algorithms that those ECMAScript operations specify. -/

/-- Epoch day number (days since 1970-01-01) of a civil date `y-m-d`,
`1 ≤ m ≤ 12`. -/
def daysFromCivil (y m d : Int) : Int :=
  let y' := if m ≤ 2 then y - 1 else y
  let era := y'.ediv 400
  let yoe := y' - era * 400
  let doy := (153 * (if 2 < m then m - 3 else m + 9) + 2).ediv 5 + d - 1
  let doe := yoe * 365 + yoe.ediv 4 - yoe.ediv 100 + doy
  era * 146097 + doe - 719468

/-- Civil date `(y, m, d)` of an epoch day number, as the `getUTCFullYear`,
`getUTCMonth + 1` and `getUTCDate` accessors return it. -/
def civilFromDays (z : Int) : Int × Int × Int :=
  let z' := z + 719468
  let era := z'.ediv 146097
  let doe := z' - era * 146097
  let yoe := (doe - doe.ediv 1460 + doe.ediv 36524 - doe.ediv 146096).ediv 365
  let y := yoe + era * 400
  let doy := doe - (365 * yoe + yoe.ediv 4 - yoe.ediv 100)
  let mp := (5 * doy + 2).ediv 153
  let d := doy - (153 * mp + 2).ediv 5 + 1
  let m := if mp < 10 then mp + 3 else mp - 9
  (if m ≤ 2 then y + 1 else y, m, d)

/-- ECMAScript `Date.UTC(y, m, d)` in epoch days: two-digit years map to
`1900 + y`, and an out-of-range month argument carries into the year
(`MakeDay`'s `ym = y + floor(m / 12)`, `mn = m modulo 12`). -/
def dateUTCDays (y m d : Int) : Int :=
  let yr := if 0 ≤ y ∧ y ≤ 99 then 1900 + y else y
  let ym := yr + m.ediv 12
  let mn := m.emod 12
  daysFromCivil ym (mn + 1) 1 + (d - 1)

/-- JS `String.prototype.split` with a single-character separator. -/
def splitOnCharAux (sep : Char) : List Char → List Char → List (List Char)
  | [], acc => [acc.reverse]
  | c :: rest, acc =>
    if c = sep then acc.reverse :: splitOnCharAux sep rest []
    else splitOnCharAux sep rest (c :: acc)

def splitOnChar (sep : Char) (l : List Char) : List (List Char) :=
  splitOnCharAux sep l []

def digitsToNat (l : List Char) : Nat :=
  l.foldl (fun n c => 10 * n + (c.toNat - 48)) 0

/-- JS `Number(part)` applied to one fragment of `s.split("-")`, with
`none` standing for NaN: the empty string converts to 0 and a run of
decimal digits to its value.  (Full JS `Number` also accepts signs,
fractions, exponents and whitespace; the date strings this program splits
never produce those forms, and every other fragment converts to NaN.) -/
def jsNumber? (s : List Char) : Option Int :=
  if s = [] then some 0
  else if s.all (fun c => c.isDigit) then some (Int.ofNat (digitsToNat s))
  else none

/-- app.js `parseDateISO`: `const [y, m, d] = s.split("-").map(Number);
return new Date(Date.UTC(y, m - 1, d));`.  The result is the epoch day of
the Date, `none` for an Invalid Date (a NaN component, fewer than three
fragments, or a time value beyond ECMAScript's TimeClip range of
±100000000 days); fragments beyond the third are ignored by the
destructuring. -/
def parseDateISO (s : String) : Option Int :=
  match (splitOnChar '-' s.data).map jsNumber? with
  | some y :: some m :: some d :: _ =>
    let days := dateUTCDays y (m - 1) d
    if days < -100000000 ∨ 100000000 < days then none else some days
  | _ => none

/-- `String(n).padStart(2, "0")` for the month/day components. -/
def pad2 (n : Int) : List Char :=
  let l := (toString n).data
  if l.length < 2 then '0' :: l else l

/-- `` `${y}-${mm}-${dd}` `` from the UTC accessors of an epoch day, with
zero-padded month and day, as app.js formats `compareISO` and
`isoMinusDays`. -/
def formatEpochDay (z : Int) : String :=
  match civilFromDays z with
  | (y, m, d) => String.mk ((toString y).data ++ '-' :: pad2 m ++ '-' :: pad2 d)

/-- app.js `isoMinusDays`: parse, subtract `days` days of milliseconds,
format back.  On an Invalid Date every accessor is NaN and the template
yields the literal string "NaN-NaN-NaN". -/
def isoMinusDays (isoDate : String) (days : Int) : String :=
  match parseDateISO isoDate with
  | none => "NaN-NaN-NaN"
  | some z => formatEpochDay (z - days)

/-- The `reduce` step of app.js's all-time high:
`(max, p) => (p.price > max ? p.price : max)` starting from `-Infinity`,
with `none` standing for `-Infinity` (every price exceeds it, and the
final `ath === -Infinity ? null : ath` conversion is the identity on this
representation). -/
def athStep (mx : Option ℚ) (p : PricePoint) : Option ℚ :=
  match mx with
  | none => some p.price
  | some m => if m < p.price then some p.price else some m

/-- app.js `computeStats` result record. -/
structure StatsSummary where
  current : Option ℚ
  change7d : Option ℚ
  change7dPct : Option ℚ
  ath : Option ℚ
  count : Nat
deriving DecidableEq

/-- app.js `computeStats` (lines 57–85).  `compareISO` is built inline in
the source from `last.date` exactly as `isoMinusDays last.date 7`; the
`typeof comparePoint.price === "number"` guard is always satisfied in the
model, where prices are numbers. -/
def computeStats (series : List PricePoint) : StatsSummary :=
  if series = [] then ⟨none, none, none, none, 0⟩
  else
    let sorted := sortSeries series
    let last := sorted.getLastD ⟨"", 0⟩
    let current := last.price
    let compareISO := isoMinusDays last.date 7
    let comparePoint := getClosestOnOrBefore sorted compareISO
    let change7d := comparePoint.map fun cp => current - cp.price
    let change7dPct := comparePoint.bind fun cp =>
      if cp.price = 0 then none else some ((current - cp.price) / cp.price * 100)
    let ath := sorted.foldl athStep none
    ⟨some current, change7d, change7dPct, ath, sorted.length⟩

/-! ### Label parsing

app.js `parseLabel` applies `/^(.+?)\s*\((.+)\)\s*$/` to the raw label.
The model below reproduces the backtracking behaviour of that regex: the
lazy `.+?` tries group-1 lengths from 1 upwards; for a fixed group-1 end,
the greedy `\s*` absorbs the maximal whitespace run, after which a literal
`(` must follow; the greedy `(.+)` together with `\)\s*$` fixes group 2 to
end at the last `)` that is followed only by whitespace; and `.` matches
any character except a line terminator. -/

/-- JS `String.prototype.trim` (both ends, the `\s` class). -/
def trimWs (l : List Char) : List Char :=
  ((l.dropWhile isJsWs).reverse.dropWhile isJsWs).reverse

/-- One candidate split of the regex at group-1 length `i` over `core`
(the label without its final `)`-plus-trailing-whitespace): greedy `\s*`
from position `i`, a `(` must follow it, group 2 (from after the `(` to
the end of `core`) must be nonempty, and neither group may contain a line
terminator. -/
def matchOk (core : List Char) (i : Nat) : Bool :=
  let j := i + ((core.drop i).takeWhile isJsWs).length
  ((core.drop j).head? == some '(') && decide (j + 2 ≤ core.length) &&
    (core.take i).all (fun c => ! isLineTerm c) &&
    (core.drop (j + 1)).all (fun c => ! isLineTerm c)

/-- Backtracking over group-1 lengths `i = 1, 2, ...`: the lazy `.+?`
takes the shortest prefix that lets the rest of the pattern match. -/
def findSplit (core : List Char) : Nat → Nat → Option Nat
  | _, 0 => none
  | i, fuel + 1 =>
    if core.length ≤ i then none
    else if matchOk core i then some i
    else findSplit core (i + 1) fuel

/-- `/^(.+?)\s*\((.+)\)\s*$/.exec(label)`: `some (m1, m2)` holds the two
capture groups, `none` means no match. -/
def parenMatch (s : List Char) : Option (List Char × List Char) :=
  match s.reverse.dropWhile isJsWs with
  | [] => none
  | c :: restRev =>
    if c = ')' then
      let core := restRev.reverse
      match findSplit core 1 core.length with
      | some i =>
        let j := i + ((core.drop i).takeWhile isJsWs).length
        some (core.take i, core.drop (j + 1))
      | none => none
    else none

/-- `inside.split(/\s+/).filter(Boolean)`: the maximal runs of
non-whitespace characters. -/
def wsTokens (l : List Char) : List (List Char) :=
  (l.foldr (fun c acc =>
    if isJsWs c then [] :: acc
    else match acc with
      | [] => [[c]]
      | t :: ts => (c :: t) :: ts) []).filter (fun t => ! t.isEmpty)

/-- The language-token test:
`/^[a-z]{2,3}$/.test(t) || /^zhs$/.test(t) || /^zht$/.test(t)` (the last
two alternatives are subsumed by the first, as in the source). -/
def isLangToken (t : List Char) : Bool :=
  ((t.length == 2 || t.length == 3) &&
    t.all (fun c => decide (97 ≤ c.toNat) && decide (c.toNat ≤ 122))) ||
  t == "zhs".data || t == "zht".data

/-- `["foil", "nonfoil", "non-foil", "etched"].includes(t.toLowerCase())`.
(`Char.toLower` is the ASCII case map; JS lower-cases the full Unicode
range, which agrees on the label alphabets used here.) -/
def isFinishToken (t : List Char) : Bool :=
  let lowered := t.map Char.toLower
  lowered == "foil".data || lowered == "nonfoil".data ||
  lowered == "non-foil".data || lowered == "etched".data

/-- JS `cn.replace("#", "")`: removes the first occurrence of `#`. -/
def removeFirstHash : List Char → List Char
  | [] => []
  | c :: rest => if c = '#' then rest else c :: removeFirstHash rest

/-- JS `bits.join(" ")`. -/
def joinSpace : List String → String
  | [] => ""
  | [s] => s
  | s :: rest => String.mk (s.data ++ ' ' :: (joinSpace rest).data)

/-- A parsed printing descriptor (the `out` object of `parseLabel`). -/
structure Printing where
  id : String
  baseName : String
  set : Option String
  collector : Option String
  lang : Option String
  finish : Option String
  printable : String
deriving DecidableEq

/-- The matched branch of app.js `parseLabel` (lines 106–128): baseName is
group 1 trimmed; the attribute tokens come from group 2; `set` is the
first token upper-cased (ASCII case map, as for `toLower` above),
`collector` the first token starting `#` with that `#` removed, `lang` the
first 2–3-lowercase-letter token, `finish` the first token whose
lower-casing is one of the four finish words, normalised by lower-casing
and collapsing `non-foil`; `printable` re-joins the recognised attributes. -/
def descriptorOfMatch (label : String) (g1 g2 : List Char) : Printing :=
  let baseName := String.mk (trimWs g1)
  let toks := wsTokens (trimWs g2)
  let setTok := toks.head?.map fun t => String.mk (t.map Char.toUpper)
  let collector := (toks.find? (fun t => t.head? == some '#')).map
    fun t => String.mk (removeFirstHash t)
  let lang := (toks.find? isLangToken).map String.mk
  let finish := (toks.find? isFinishToken).map fun t =>
    if t.map Char.toLower == "non-foil".data then "nonfoil"
    else String.mk (t.map Char.toLower)
  let bits := setTok.toList ++
    (collector.map fun c => String.mk ('#' :: c.data)).toList ++
    lang.toList ++ finish.toList
  ⟨label, baseName, setTok, collector, lang, finish, joinSpace bits⟩

/-- app.js `parseLabel` (lines 92–129): on no match the whole label is the
base name, printable and id, with every attribute unset. -/
def parseLabel (label : String) : Printing :=
  match parenMatch label.data with
  | none => ⟨label, label, none, none, none, none, label⟩
  | some (g1, g2) => descriptorOfMatch label g1 g2

/-! ### Combined series -/

/-- First-match lookup in an association list: JS `Map.get`, and the
`pricesById[id]` object property access (keys are unique in the maps the
program builds). -/
def alistGet {β : Type} (m : List (String × β)) (k : String) : Option β :=
  (m.find? (fun kv => kv.1 == k)).map Prod.snd

/-- The inner-loop body of `buildCombinedSeries`:
`const curr = perDay.get(pt.date);
 if (curr === undefined || pt.price > curr) perDay.set(pt.date, pt.price);`
— a JS `Map.set` updates an existing key in place and appends a new one. -/
def updateMax : List (String × ℚ) → String → ℚ → List (String × ℚ)
  | [], date, price => [(date, price)]
  | (d, p) :: rest, date, price =>
    if d = date then (d, if p < price then price else p) :: rest
    else (d, p) :: updateMax rest date price

/-- The middle loop of `buildCombinedSeries`: fold one printing's series
into the per-day maximum map. -/
def insertSeries (m : List (String × ℚ)) (s : List PricePoint) :
    List (String × ℚ) :=
  s.foldl (fun m pt => updateMax m pt.date pt.price) m

/-- `buildCombinedSeries` after the two lookups: fold every series into an
empty per-day map, sort the keys (`Array.from(perDay.keys()).sort()`, the
default code-unit comparator), and emit one point per date. -/
def combinePerDay (seriess : List (List PricePoint)) : List PricePoint :=
  let perDay := seriess.foldl insertSeries []
  (List.insertionSort strLe (perDay.map Prod.fst)).map
    fun d => ⟨d, (alistGet perDay d).getD 0⟩

/-- app.js `buildCombinedSeries` (lines 131–146), with the module state
`printingsByBase` and `pricesById` passed explicitly.  Both `|| []`
defaults are the `Option.getD []`. -/
def buildCombinedSeries (printingsByBase : List (String × List Printing))
    (pricesById : List (String × List PricePoint)) (baseName : String) :
    List PricePoint :=
  let printings := (alistGet printingsByBase baseName).getD []
  let perDay := printings.foldl
    (fun m p => insertSeries m ((alistGet pricesById p.id).getD [])) []
  (List.insertionSort strLe (perDay.map Prod.fst)).map
    fun d => ⟨d, (alistGet perDay d).getD 0⟩

/-- The printings bucket of one base name (`printingsByBase.get(baseName)
|| []`). -/
def printingsFor (printingsByBase : List (String × List Printing))
    (baseName : String) : List Printing :=
  (alistGet printingsByBase baseName).getD []

/-- One printing's series (`pricesById[p.id] || []`). -/
def seriesFor (pricesById : List (String × List PricePoint)) (p : Printing) :
    List PricePoint :=
  (alistGet pricesById p.id).getD []

/-- Every point of every series of one base name's printings. -/
def basePoints (printingsByBase : List (String × List Printing))
    (pricesById : List (String × List PricePoint)) (baseName : String) :
    List PricePoint :=
  ((printingsFor printingsByBase baseName).map (seriesFor pricesById)).flatten

/-! ### Movers -/

/-- app.js `pctChange` (lines 350–353): `none` for a zero base value (the
`null`/`undefined` guards cannot fire here, where the argument is a
number). -/
def pctChange (fromVal toVal : ℚ) : Option ℚ :=
  if fromVal = 0 then none else some ((toVal - fromVal) / fromVal * 100)

/-- app.js `seriesLast` (lines 355–359). -/
def seriesLast (series : List PricePoint) : Option PricePoint :=
  if series = [] then none else some ((sortSeries series).getLastD ⟨"", 0⟩)

/-- app.js `seriesValueAtOrBefore` (lines 361–365). -/
def seriesValueAtOrBefore (series : List PricePoint) (targetISODate : String) :
    Option ℚ :=
  (getClosestOnOrBefore (sortSeries series) targetISODate).map
    fun p => p.price

/-- One entry of the `movers` array of `computeMovers7d`. -/
structure Mover where
  baseName : String
  startDate : String
  endDate : String
  startVal : ℚ
  endVal : ℚ
  delta : ℚ
  pct : Option ℚ
deriving DecidableEq

/-- One iteration of the `computeMovers7d` loop: `none` when the iteration
`continue`s (no last point, or no value at or before the window start). -/
def moverFor (printingsByBase : List (String × List Printing))
    (pricesById : List (String × List PricePoint)) (baseName : String) :
    Option Mover :=
  let combined := buildCombinedSeries printingsByBase pricesById baseName
  match seriesLast combined with
  | none => none
  | some lastPt =>
    let endDate := lastPt.date
    let startDate := isoMinusDays endDate 7
    match seriesValueAtOrBefore combined startDate with
    | none => none
    | some startVal =>
      let endVal := lastPt.price
      some ⟨baseName, startDate, endDate, startVal, endVal,
        endVal - startVal, pctChange startVal endVal⟩

/-- The gainers comparator `(a, b) => b.delta - a.delta`: `a` sorts before
`b` when the comparator is `<= 0`, i.e. `b.delta ≤ a.delta`. -/
def gainOrder (a b : Mover) : Prop := b.delta ≤ a.delta

/-- The losers comparator `(a, b) => a.delta - b.delta`. -/
def loseOrder (a b : Mover) : Prop := a.delta ≤ b.delta

instance : DecidableRel gainOrder := fun a b =>
  inferInstanceAs (Decidable (b.delta ≤ a.delta))

instance : DecidableRel loseOrder := fun a b =>
  inferInstanceAs (Decidable (a.delta ≤ b.delta))

instance : IsTotal Mover gainOrder := ⟨fun a b => le_total b.delta a.delta⟩

instance : IsTrans Mover gainOrder :=
  ⟨fun _ _ _ h₁ h₂ => le_trans h₂ h₁⟩

instance : IsTotal Mover loseOrder := ⟨fun a b => le_total a.delta b.delta⟩

instance : IsTrans Mover loseOrder :=
  ⟨fun _ _ _ h₁ h₂ => le_trans h₁ h₂⟩

/-- app.js `computeMovers7d` (lines 377–417): build one candidate per base
name (in order, skipping with `continue` as `moverFor` does), then filter,
sort (stable comparator sort, modelled as insertion sort) and truncate
(`slice(0, limit)`) the gainers and losers. -/
def computeMovers7d (printingsByBase : List (String × List Printing))
    (pricesById : List (String × List PricePoint))
    (baseNames : List String) (limit : Nat) : List Mover × List Mover :=
  let movers := baseNames.filterMap (moverFor printingsByBase pricesById)
  let gainers :=
    (List.insertionSort gainOrder
      (movers.filter (fun m => decide (0 < m.delta)))).take limit
  let losers :=
    (List.insertionSort loseOrder
      (movers.filter (fun m => decide (m.delta < 0)))).take limit
  (gainers, losers)

/-! ### Helper lemmas: sorting and the stats fields -/

theorem sortSeries_perm (s : List PricePoint) : (sortSeries s).Perm s :=
  List.perm_insertionSort dateLe s

theorem sortSeries_sorted (s : List PricePoint) :
    (sortSeries s).Pairwise dateLe :=
  List.sorted_insertionSort dateLe s

theorem mem_sortSeries {x : PricePoint} {s : List PricePoint} :
    x ∈ sortSeries s ↔ x ∈ s :=
  (sortSeries_perm s).mem_iff

theorem getLastD_mem {α : Type} (l : List α) (d : α) (h : l ≠ []) :
    l.getLastD d ∈ l := by
  induction l generalizing d with
  | nil => exact absurd rfl h
  | cons a t ih =>
    rw [List.getLastD_cons]
    cases t with
    | nil => simp [List.getLastD]
    | cons b t2 => exact List.mem_cons_of_mem _ (ih a (by simp))

theorem pairwise_rel_getLastD {α : Type} {r : α → α → Prop}
    (l : List α) (d : α) (hp : l.Pairwise r) :
    ∀ x ∈ l, x = l.getLastD d ∨ r x (l.getLastD d) := by
  induction l generalizing d with
  | nil => intro x hx; exact absurd hx (List.not_mem_nil x)
  | cons a t ih =>
    intro x hx
    rw [List.getLastD_cons]
    cases t with
    | nil =>
      rcases List.mem_singleton.mp hx with h
      simp [List.getLastD, h]
    | cons b t2 =>
      have hlast : (b :: t2).getLastD a ∈ b :: t2 := getLastD_mem _ _ (by simp)
      rcases List.mem_cons.mp hx with h | h
      · subst h
        exact Or.inr ((List.pairwise_cons.mp hp).1 _ hlast)
      · exact ih a (List.pairwise_cons.mp hp).2 x h

/-- The `reduce` of the all-time high as an explicit maximum. -/
def omax : Option ℚ → Option ℚ → Option ℚ
  | none, b => b
  | some a, none => some a
  | some a, some b => some (max a b)

theorem omax_none_right (a : Option ℚ) : omax a none = a := by
  cases a <;> rfl

theorem omax_assoc (a b c : Option ℚ) :
    omax (omax a b) c = omax a (omax b c) := by
  cases a <;> cases b <;> cases c <;> simp [omax, max_assoc]

theorem athStep_eq_omax (o : Option ℚ) (p : PricePoint) :
    athStep o p = omax o (some p.price) := by
  cases o with
  | none => rfl
  | some m =>
    simp only [athStep, omax]
    by_cases h : m < p.price
    · simp [if_pos h, max_eq_right (le_of_lt h)]
    · simp [if_neg h, max_eq_left (not_lt.mp h)]

/-- The maximum price of a series, as an option. -/
def maxPrice : List PricePoint → Option ℚ
  | [] => none
  | pt :: s => omax (some pt.price) (maxPrice s)

theorem foldl_athStep (l : List PricePoint) (o : Option ℚ) :
    l.foldl athStep o = omax o (maxPrice l) := by
  induction l generalizing o with
  | nil => simp [maxPrice, omax_none_right]
  | cons pt s ih =>
    simp only [List.foldl_cons, maxPrice]
    rw [ih, athStep_eq_omax, omax_assoc]

theorem maxPrice_spec (l : List PricePoint) (h : l ≠ []) :
    ∃ q, maxPrice l = some q ∧ (∃ pt ∈ l, pt.price = q) ∧
      ∀ pt ∈ l, pt.price ≤ q := by
  induction l with
  | nil => exact absurd rfl h
  | cons pt s ih =>
    cases s with
    | nil =>
      refine ⟨pt.price, by simp [maxPrice, omax], ⟨pt, by simp⟩, ?_⟩
      intro x hx
      rcases List.mem_singleton.mp hx with h
      simp [h]
    | cons b t =>
      obtain ⟨q, hq, ⟨w, hw, hwq⟩, hub⟩ := ih (by simp)
      have hmp : maxPrice (pt :: b :: t) = omax (some pt.price)
          (maxPrice (b :: t)) := rfl
      refine ⟨max pt.price q, by rw [hmp, hq]; rfl, ?_, ?_⟩
      · rcases le_total pt.price q with hle | hle
        · exact ⟨w, List.mem_cons_of_mem _ hw, by rw [hwq, max_eq_right hle]⟩
        · exact ⟨pt, List.mem_cons_self _ _, (max_eq_left hle).symm⟩
      · intro x hx
        rcases List.mem_cons.mp hx with h | h
        · subst h; exact le_max_left _ _
        · exact le_trans (hub x h) (le_max_right _ _)

theorem computeStats_of_ne_nil (series : List PricePoint) (h : series ≠ []) :
    computeStats series =
      ⟨some ((sortSeries series).getLastD ⟨"", 0⟩).price,
       (getClosestOnOrBefore (sortSeries series)
           (isoMinusDays ((sortSeries series).getLastD ⟨"", 0⟩).date 7)).map
         (fun cp => ((sortSeries series).getLastD ⟨"", 0⟩).price - cp.price),
       (getClosestOnOrBefore (sortSeries series)
           (isoMinusDays ((sortSeries series).getLastD ⟨"", 0⟩).date 7)).bind
         (fun cp => if cp.price = 0 then none
           else some ((((sortSeries series).getLastD ⟨"", 0⟩).price - cp.price)
             / cp.price * 100)),
       (sortSeries series).foldl athStep none,
       (sortSeries series).length⟩ := by
  simp only [computeStats, if_neg h]

theorem computeStats_eval (series sorted : List PricePoint)
    (last : PricePoint) (cp : Option PricePoint) (a : Option ℚ)
    (hne : series ≠ []) (hs : sortSeries series = sorted)
    (hl : sorted.getLastD ⟨"", 0⟩ = last)
    (hcp : getClosestOnOrBefore sorted (isoMinusDays last.date 7) = cp)
    (ha : sorted.foldl athStep none = a) :
    computeStats series = ⟨some last.price,
      cp.map (fun c => last.price - c.price),
      cp.bind (fun c => if c.price = 0 then none
        else some ((last.price - c.price) / c.price * 100)),
      a, sorted.length⟩ := by
  rw [computeStats_of_ne_nil series hne, hs, hl, hcp, ha]

/-- C3: for every series `S`, `computeStats(S).count` equals `|S|`; on a
non-empty `S`, `current` is the price of the chronologically last point (a
point of `S` whose date is `>=` every date of `S`) and `ath` is the
maximum price over `S`; on the empty series `current`, `change7d`,
`change7dPct` and `ath` are all `none` and `count` is 0. -/
theorem computeStats_count_current_ath (S : List PricePoint) :
    (computeStats S).count = S.length ∧
    (S = [] → computeStats S = ⟨none, none, none, none, 0⟩) ∧
    (S ≠ [] → ∃ last ∈ S, (computeStats S).current = some last.price ∧
      (∀ pt ∈ S, strLe pt.date last.date) ∧
      ∃ q, (computeStats S).ath = some q ∧ (∃ pt ∈ S, pt.price = q) ∧
        ∀ pt ∈ S, pt.price ≤ q) := by
  by_cases hne : S = []
  · subst hne
    exact ⟨rfl, fun _ => rfl, fun h => absurd rfl h⟩
  · have hlen : (sortSeries S).length = S.length := (sortSeries_perm S).length_eq
    have hsne : sortSeries S ≠ [] := by
      intro h0
      rw [h0] at hlen
      exact hne (List.eq_nil_of_length_eq_zero hlen.symm)
    have hcs := computeStats_of_ne_nil S hne
    refine ⟨by rw [hcs]; exact hlen, fun h => absurd h hne, fun _ => ?_⟩
    set last := (sortSeries S).getLastD ⟨"", 0⟩ with hlast
    have hmem : last ∈ S := mem_sortSeries.mp (getLastD_mem _ _ hsne)
    refine ⟨last, hmem, by rw [hcs], ?_, ?_⟩
    · intro pt hpt
      rcases pairwise_rel_getLastD (sortSeries S) ⟨"", 0⟩ (sortSeries_sorted S)
        pt (mem_sortSeries.mpr hpt) with h | h
      · rw [h]; exact strLe_refl _
      · exact h
    · obtain ⟨q, hq, ⟨w, hw, hwq⟩, hub⟩ := maxPrice_spec (sortSeries S) hsne
      refine ⟨q, ?_, ⟨w, mem_sortSeries.mp hw, hwq⟩, ?_⟩
      · rw [hcs]
        show (sortSeries S).foldl athStep none = some q
        rw [foldl_athStep]
        exact hq
      · intro pt hpt
        exact hub pt (mem_sortSeries.mpr hpt)

/-- C6: a non-empty series in which no point's date is on or before
`isoMinusDays` of the last date by 7 days (in particular, any single-point
series with a well-formed date, as the witness instantiates) gets
`change7d = none` and `change7dPct = none`, never zero and never an error,
while `ath` is still the maximum price over the series. -/
theorem computeStats_no_window (S : List PricePoint) (hne : S ≠ [])
    (h : ∀ pt ∈ S, ¬ strLe pt.date
      (isoMinusDays ((sortSeries S).getLastD ⟨"", 0⟩).date 7)) :
    (computeStats S).change7d = none ∧ (computeStats S).change7dPct = none ∧
    ∃ q, (computeStats S).ath = some q ∧ (∃ pt ∈ S, pt.price = q) ∧
      ∀ pt ∈ S, pt.price ≤ q := by
  have hlen : (sortSeries S).length = S.length := (sortSeries_perm S).length_eq
  have hsne : sortSeries S ≠ [] := by
    intro h0
    rw [h0] at hlen
    exact hne (List.eq_nil_of_length_eq_zero hlen.symm)
  have hcs := computeStats_of_ne_nil S hne
  have hnone : getClosestOnOrBefore (sortSeries S)
      (isoMinusDays ((sortSeries S).getLastD ⟨"", 0⟩).date 7) = none := by
    apply List.find?_eq_none.mpr
    intro x hx
    have hxS : x ∈ S := mem_sortSeries.mp (List.mem_reverse.mp hx)
    simpa [strLe] using h x hxS
  refine ⟨by rw [hcs, hnone]; rfl, by rw [hcs, hnone]; rfl, ?_⟩
  obtain ⟨q, hq, ⟨w, hw, hwq⟩, hub⟩ := maxPrice_spec (sortSeries S) hsne
  refine ⟨q, ?_, ⟨w, mem_sortSeries.mp hw, hwq⟩, ?_⟩
  · rw [hcs]
    show (sortSeries S).foldl athStep none = some q
    rw [foldl_athStep]
    exact hq
  · intro pt hpt
    exact hub pt (mem_sortSeries.mpr hpt)

/-- C6 witness: the single-point series. -/
theorem computeStats_no_window_witness :
    (computeStats [⟨"2024-01-08", 5⟩]).change7d = none ∧
    (computeStats [⟨"2024-01-08", 5⟩]).change7dPct = none ∧
    ∃ q, (computeStats [⟨"2024-01-08", 5⟩]).ath = some q ∧
      (∃ pt ∈ [(⟨"2024-01-08", 5⟩ : PricePoint)], pt.price = q) ∧
      ∀ pt ∈ [(⟨"2024-01-08", 5⟩ : PricePoint)], pt.price ≤ q :=
  computeStats_no_window [⟨"2024-01-08", 5⟩] (by decide) (by decide)

/-- C10: `change7dPct` is `none` whenever `change7d` is, but not
conversely: a comparison point priced exactly 0 yields a numeric
`change7d` (equal to `current`, the last point's price) with
`change7dPct = none`. -/
theorem computeStats_change_decoupling (S : List PricePoint) :
    ((computeStats S).change7d = none → (computeStats S).change7dPct = none) ∧
    (∀ cp : PricePoint, S ≠ [] →
      getClosestOnOrBefore (sortSeries S)
        (isoMinusDays ((sortSeries S).getLastD ⟨"", 0⟩).date 7) = some cp →
      cp.price = 0 →
      (computeStats S).change7d =
        some ((sortSeries S).getLastD ⟨"", 0⟩).price ∧
      (computeStats S).change7dPct = none) := by
  constructor
  · intro h
    by_cases hne : S = []
    · subst hne; rfl
    · have hcs := computeStats_of_ne_nil S hne
      have h7 : getClosestOnOrBefore (sortSeries S)
          (isoMinusDays ((sortSeries S).getLastD ⟨"", 0⟩).date 7) = none := by
        by_contra hc
        rcases Option.ne_none_iff_exists'.mp hc with ⟨cp, hcp⟩
        rw [hcs] at h
        simp only [hcp] at h
        simp at h
      rw [hcs]
      simp only [h7]
      rfl
  · intro cp hne hcp hzero
    have hcs := computeStats_of_ne_nil S hne
    rw [hcs]
    simp only [hcp]
    constructor
    · show some (((sortSeries S).getLastD ⟨"", 0⟩).price - cp.price) = _
      rw [hzero, sub_zero]
    · show (if cp.price = 0 then none
        else some ((((sortSeries S).getLastD ⟨"", 0⟩).price - cp.price)
          / cp.price * 100)) = (none : Option ℚ)
      rw [if_pos hzero]

/-- C10 witness: a comparison point priced 0 gives `change7d = 5` (the
current price) while `change7dPct` is `none`. -/
theorem computeStats_change_decoupling_witness :
    (computeStats [⟨"2024-01-01", 0⟩, ⟨"2024-01-08", 5⟩]).change7d = some 5 ∧
    (computeStats [⟨"2024-01-01", 0⟩, ⟨"2024-01-08", 5⟩]).change7dPct = none := by
  have h := (computeStats_change_decoupling
      [⟨"2024-01-01", 0⟩, ⟨"2024-01-08", 5⟩]).2 ⟨"2024-01-01", 0⟩
      (by decide) (by decide) (by decide)
  have hlast : ((sortSeries [⟨"2024-01-01", 0⟩, ⟨"2024-01-08", 5⟩]).getLastD
      ⟨"", 0⟩).price = 5 := by decide
  exact ⟨by rw [h.1, hlast], h.2⟩

/-- The C4 scenario's printing index: base name "Foo" with printings
`A1` and `A2`. -/
def fooIndex : List (String × List Printing) :=
  [("Foo", [⟨"A1", "Foo", none, none, none, none, "A1"⟩,
            ⟨"A2", "Foo", none, none, none, none, "A2"⟩])]

/-- The C4 scenario's price series. -/
def fooPrices : List (String × List PricePoint) :=
  [("A1", [⟨"2024-01-01", 10⟩, ⟨"2024-01-08", 12⟩]),
   ("A2", [⟨"2024-01-01", 9⟩, ⟨"2024-01-08", 15⟩])]

/-- C4: for base name "Foo" with `A1 = {(2024-01-01,10),(2024-01-08,12)}`
and `A2 = {(2024-01-01,9),(2024-01-08,15)}`, the combined series is
`{(2024-01-01,10),(2024-01-08,15)}` and `computeStats` on it returns
`current = 15`, `change7d = 5`, `change7dPct = 50`, `ath = 15`,
`count = 2`. -/
theorem scenario_foo_combined_stats :
    buildCombinedSeries fooIndex fooPrices "Foo" =
      [⟨"2024-01-01", 10⟩, ⟨"2024-01-08", 15⟩] ∧
    computeStats (buildCombinedSeries fooIndex fooPrices "Foo") =
      ⟨some 15, some 5, some 50, some 15, 2⟩ := by
  have hb : buildCombinedSeries fooIndex fooPrices "Foo" =
      [⟨"2024-01-01", 10⟩, ⟨"2024-01-08", 15⟩] := by decide
  refine ⟨hb, ?_⟩
  rw [hb]
  have h := computeStats_eval [⟨"2024-01-01", 10⟩, ⟨"2024-01-08", 15⟩]
      [⟨"2024-01-01", 10⟩, ⟨"2024-01-08", 15⟩] ⟨"2024-01-08", 15⟩
      (some ⟨"2024-01-01", 10⟩) (some 15) (by decide) (by decide) (by decide)
      (by decide) (by decide)
  rw [h]
  norm_num

/-- C7: the label `"Aim High (INR #185 en nonfoil)"` parses to
`baseName = "Aim High"`, `set = "INR"`, `collector = "185"`,
`lang = "en"`, `finish = "nonfoil"`,
`printable = "INR #185 en nonfoil"` (and `id` the whole label). -/
theorem parseLabel_aim_high :
    parseLabel "Aim High (INR #185 en nonfoil)" =
      ⟨"Aim High (INR #185 en nonfoil)", "Aim High", some "INR", some "185",
       some "en", some "nonfoil", "INR #185 en nonfoil"⟩ := by decide

/-! ### Helper lemmas: the per-day maximum map -/

theorem alistGet_cons {β : Type} (k : String) (v : β)
    (rest : List (String × β)) (d : String) :
    alistGet ((k, v) :: rest) d = if k = d then some v else alistGet rest d := by
  by_cases h : k = d
  · have hb : (k == d) = true := beq_iff_eq.mpr h
    simp [alistGet, List.find?, hb, h]
  · have hb : (k == d) = false := by
      rw [beq_eq_false_iff_ne]
      exact h
    simp [alistGet, List.find?, hb, h]

theorem alistGet_nil {β : Type} (d : String) :
    alistGet ([] : List (String × β)) d = none := rfl

/-- The maximum price among the points of `pts` dated `d` (`none` when no
point has that date): the invariant value of one `perDay` entry. -/
def bestAt : List PricePoint → String → Option ℚ
  | [], _ => none
  | pt :: s, d =>
    if pt.date = d then omax (some pt.price) (bestAt s d) else bestAt s d

theorem bestAt_cons (pt : PricePoint) (s : List PricePoint) (d : String) :
    bestAt (pt :: s) d =
      if pt.date = d then omax (some pt.price) (bestAt s d)
      else bestAt s d := rfl

theorem omax_some_left_ne_none (a : ℚ) (b : Option ℚ) :
    omax (some a) b ≠ none := by
  cases b <;> simp [omax]

theorem updateMax_nil (date : String) (price : ℚ) :
    updateMax [] date price = [(date, price)] := rfl

theorem updateMax_cons (k : String) (v : ℚ) (rest : List (String × ℚ))
    (date : String) (price : ℚ) :
    updateMax ((k, v) :: rest) date price =
      if k = date then (k, if v < price then price else v) :: rest
      else (k, v) :: updateMax rest date price := rfl

theorem updateMax_get (m : List (String × ℚ)) (date : String) (price : ℚ)
    (d : String) :
    alistGet (updateMax m date price) d =
      if d = date then omax (alistGet m date) (some price)
      else alistGet m d := by
  induction m with
  | nil =>
    rw [updateMax_nil, alistGet_cons]
    by_cases h : d = date
    · rw [if_pos h, if_pos h.symm]
      rfl
    · rw [if_neg h, if_neg (fun he => h he.symm)]
  | cons kv rest ih =>
    obtain ⟨k, v⟩ := kv
    rw [updateMax_cons]
    by_cases hk : k = date
    · rw [if_pos hk]
      by_cases hd : d = date
      · rw [if_pos hd, alistGet_cons, if_pos (hk.trans hd.symm),
          alistGet_cons, if_pos hk]
        have hmax : (if v < price then price else v) = max v price := by
          by_cases h : v < price
          · rw [if_pos h, max_eq_right (le_of_lt h)]
          · rw [if_neg h, max_eq_left (not_lt.mp h)]
        rw [hmax]
        rfl
      · have hkd : ¬ k = d := fun he => hd (hk ▸ he : date = d).symm
        rw [if_neg hd, alistGet_cons, alistGet_cons, if_neg hkd, if_neg hkd]
    · rw [if_neg hk, alistGet_cons, ih]
      by_cases hkd : k = d
      · have hd : ¬ d = date := fun he => hk (hkd.trans he)
        rw [if_pos hkd, if_neg hd, alistGet_cons, if_pos hkd]
      · rw [if_neg hkd]
        by_cases hd : d = date
        · rw [if_pos hd, if_pos hd, alistGet_cons, if_neg hk]
        · rw [if_neg hd, if_neg hd, alistGet_cons, if_neg hkd]

theorem insertSeries_cons (m : List (String × ℚ)) (pt : PricePoint)
    (s : List PricePoint) :
    insertSeries m (pt :: s) = insertSeries (updateMax m pt.date pt.price) s :=
  rfl

theorem alistGet_insertSeries (s : List PricePoint) (m : List (String × ℚ))
    (d : String) :
    alistGet (insertSeries m s) d = omax (alistGet m d) (bestAt s d) := by
  induction s generalizing m with
  | nil => simp [insertSeries, bestAt, omax_none_right]
  | cons pt s ih =>
    rw [insertSeries_cons, ih, updateMax_get, bestAt_cons]
    by_cases h : d = pt.date
    · rw [if_pos h, if_pos h.symm, h, omax_assoc]
    · rw [if_neg h, if_neg (fun he => h he.symm)]

theorem bestAt_append (u v : List PricePoint) (d : String) :
    bestAt (u ++ v) d = omax (bestAt u d) (bestAt v d) := by
  induction u with
  | nil => simp [bestAt, omax]
  | cons pt s ih =>
    have hc : bestAt ((pt :: s) ++ v) d =
        if pt.date = d then omax (some pt.price) (bestAt (s ++ v) d)
        else bestAt (s ++ v) d := rfl
    rw [hc, bestAt_cons, ih]
    by_cases h : pt.date = d
    · rw [if_pos h, if_pos h, omax_assoc]
    · rw [if_neg h, if_neg h]

theorem alistGet_foldl_insertSeries (ss : List (List PricePoint))
    (m : List (String × ℚ)) (d : String) :
    alistGet (ss.foldl insertSeries m) d =
      omax (alistGet m d) (bestAt ss.flatten d) := by
  induction ss generalizing m with
  | nil => simp [bestAt, omax_none_right]
  | cons s ss ih =>
    show alistGet (ss.foldl insertSeries (insertSeries m s)) d = _
    rw [ih, alistGet_insertSeries, List.flatten_cons, bestAt_append, omax_assoc]

theorem alistGet_eq_none_iff {β : Type} (m : List (String × β)) (d : String) :
    alistGet m d = none ↔ d ∉ m.map Prod.fst := by
  induction m with
  | nil => simp [alistGet_nil]
  | cons kv rest ih =>
    obtain ⟨k, v⟩ := kv
    rw [alistGet_cons]
    by_cases h : k = d
    · simp [h]
    · have h' : ¬ d = k := fun he => h he.symm
      simp [h, h', ih]

theorem map_fst_updateMax (m : List (String × ℚ)) (date : String) (price : ℚ) :
    (updateMax m date price).map Prod.fst =
      if date ∈ m.map Prod.fst then m.map Prod.fst
      else m.map Prod.fst ++ [date] := by
  induction m with
  | nil => simp [updateMax_nil]
  | cons kv rest ih =>
    obtain ⟨k, v⟩ := kv
    rw [updateMax_cons]
    by_cases hk : k = date
    · rw [if_pos hk]
      simp [hk]
    · rw [if_neg hk]
      have hk' : ¬ date = k := fun he => hk he.symm
      by_cases hmem : date ∈ rest.map Prod.fst
      · simp [hmem, ih, hk']
      · simp [hmem, ih, hk']

theorem nodup_keys_updateMax (m : List (String × ℚ)) (date : String)
    (price : ℚ) (h : (m.map Prod.fst).Nodup) :
    ((updateMax m date price).map Prod.fst).Nodup := by
  rw [map_fst_updateMax]
  by_cases hmem : date ∈ m.map Prod.fst
  · rwa [if_pos hmem]
  · rw [if_neg hmem, List.nodup_append]
    exact ⟨h, List.nodup_singleton date,
      fun a ha hb => hmem ((List.mem_singleton.mp hb) ▸ ha)⟩

theorem nodup_keys_insertSeries (s : List PricePoint)
    (m : List (String × ℚ)) (h : (m.map Prod.fst).Nodup) :
    ((insertSeries m s).map Prod.fst).Nodup := by
  induction s generalizing m with
  | nil => exact h
  | cons pt s ih =>
    rw [insertSeries_cons]
    exact ih (updateMax m pt.date pt.price) (nodup_keys_updateMax _ _ _ h)

theorem nodup_keys_foldl_insertSeries (ss : List (List PricePoint))
    (m : List (String × ℚ)) (h : (m.map Prod.fst).Nodup) :
    ((ss.foldl insertSeries m).map Prod.fst).Nodup := by
  induction ss generalizing m with
  | nil => exact h
  | cons s ss ih => exact ih _ (nodup_keys_insertSeries s m h)

theorem bestAt_eq_none_iff (pts : List PricePoint) (d : String) :
    bestAt pts d = none ↔ ∀ pt ∈ pts, pt.date ≠ d := by
  induction pts with
  | nil => simp [bestAt]
  | cons pt s ih =>
    rw [bestAt_cons]
    by_cases h : pt.date = d
    · rw [if_pos h]
      constructor
      · intro hc
        exact absurd hc (omax_some_left_ne_none _ _)
      · intro hc
        exact absurd h (hc pt (List.mem_cons_self _ _))
    · rw [if_neg h, ih]
      constructor
      · intro hc x hx
        rcases List.mem_cons.mp hx with rfl | hx'
        · exact h
        · exact hc x hx'
      · intro hc x hx
        exact hc x (List.mem_cons_of_mem _ hx)

theorem bestAt_eq_maxPrice_filter (pts : List PricePoint) (d : String) :
    bestAt pts d = maxPrice (pts.filter (fun pt => pt.date == d)) := by
  induction pts with
  | nil => rfl
  | cons pt s ih =>
    rw [bestAt_cons]
    by_cases h : pt.date = d
    · have hb : (pt.date == d) = true := beq_iff_eq.mpr h
      rw [show (pt :: s).filter (fun pt => pt.date == d) =
        pt :: s.filter (fun pt => pt.date == d) from by
          simp [List.filter_cons, hb]]
      rw [if_pos h, ih]
      rfl
    · have hb : (pt.date == d) = false := by
        rw [beq_eq_false_iff_ne]
        exact h
      rw [show (pt :: s).filter (fun pt => pt.date == d) =
        s.filter (fun pt => pt.date == d) from by simp [List.filter_cons, hb]]
      rw [if_neg h, ih]

theorem bestAt_eq_some_iff (pts : List PricePoint) (d : String) (q : ℚ) :
    bestAt pts d = some q ↔
      ((∃ pt ∈ pts, pt.date = d ∧ pt.price = q) ∧
       ∀ pt ∈ pts, pt.date = d → pt.price ≤ q) := by
  rw [bestAt_eq_maxPrice_filter]
  constructor
  · intro h
    have hne : pts.filter (fun pt => pt.date == d) ≠ [] := by
      intro h0
      rw [h0] at h
      exact Option.noConfusion h
    obtain ⟨q', hq', ⟨w, hw, hwq⟩, hub⟩ := maxPrice_spec _ hne
    rw [h] at hq'
    have hqq : q = q' := Option.some.inj hq'
    subst hqq
    have hwm := List.mem_filter.mp hw
    refine ⟨⟨w, hwm.1, by simpa using hwm.2, hwq⟩, ?_⟩
    intro x hx hxd
    exact hub x (List.mem_filter.mpr ⟨hx, by simpa using hxd⟩)
  · rintro ⟨⟨w, hw, hwd, hwq⟩, hub⟩
    have hwf : w ∈ pts.filter (fun pt => pt.date == d) :=
      List.mem_filter.mpr ⟨hw, by simpa using hwd⟩
    have hne : pts.filter (fun pt => pt.date == d) ≠ [] :=
      List.ne_nil_of_mem hwf
    obtain ⟨q', hq', ⟨w', hw', hwq'⟩, hub'⟩ := maxPrice_spec _ hne
    have hw'm := List.mem_filter.mp hw'
    have h1 : q' ≤ q := by
      rw [← hwq']
      exact hub w' hw'm.1 (by simpa using hw'm.2)
    have h2 : q ≤ q' := by
      rw [← hwq]
      exact hub' w hwf
    rw [hq', le_antisymm h1 h2]

theorem bestAt_congr {pts₁ pts₂ : List PricePoint}
    (h : ∀ pt : PricePoint, pt ∈ pts₁ ↔ pt ∈ pts₂) (d : String) :
    bestAt pts₁ d = bestAt pts₂ d := by
  cases h₁ : bestAt pts₁ d with
  | none =>
    symm
    rw [bestAt_eq_none_iff]
    intro x hx
    exact (bestAt_eq_none_iff pts₁ d).mp h₁ x ((h x).mpr hx)
  | some q =>
    symm
    rw [bestAt_eq_some_iff]
    obtain ⟨⟨w, hw, hwd, hwq⟩, hub⟩ := (bestAt_eq_some_iff pts₁ d q).mp h₁
    exact ⟨⟨w, (h w).mp hw, hwd, hwq⟩,
      fun x hx hxd => hub x ((h x).mpr hx) hxd⟩

theorem combinePerDay_mem_iff (ss : List (List PricePoint)) (c : PricePoint) :
    c ∈ combinePerDay ss ↔ bestAt ss.flatten c.date = some c.price := by
  have hget : ∀ d : String, alistGet (ss.foldl insertSeries []) d =
      bestAt ss.flatten d := by
    intro d
    rw [alistGet_foldl_insertSeries, alistGet_nil]
    rfl
  constructor
  · intro hc
    rcases List.mem_map.mp hc with ⟨d, hd, hdc⟩
    have hdk : d ∈ (ss.foldl insertSeries []).map Prod.fst :=
      (List.perm_insertionSort strLe _).mem_iff.mp hd
    have hg : alistGet (ss.foldl insertSeries []) d ≠ none := by
      intro hcon
      exact (alistGet_eq_none_iff _ _).mp hcon hdk
    rcases Option.ne_none_iff_exists'.mp hg with ⟨q, hq⟩
    have hc' : c = ⟨d, q⟩ := by
      rw [← hdc]
      simp [hq]
    rw [hc']
    show bestAt ss.flatten d = some q
    rw [← hget d]
    exact hq
  · intro hb
    have hg : alistGet (ss.foldl insertSeries []) c.date = some c.price := by
      rw [hget]
      exact hb
    have hdk : c.date ∈ (ss.foldl insertSeries []).map Prod.fst := by
      by_contra hcon
      rw [← alistGet_eq_none_iff] at hcon
      rw [hcon] at hg
      exact Option.noConfusion hg
    have hds : c.date ∈ List.insertionSort strLe
        ((ss.foldl insertSeries []).map Prod.fst) :=
      (List.perm_insertionSort strLe _).mem_iff.mpr hdk
    refine List.mem_map.mpr ⟨c.date, hds, ?_⟩
    show (⟨c.date, (alistGet (ss.foldl insertSeries []) c.date).getD 0⟩ :
      PricePoint) = c
    rw [hg]
    rfl

theorem combinePerDay_pairwise (ss : List (List PricePoint)) :
    (combinePerDay ss).Pairwise (fun a b => strLt a.date b.date) := by
  have hsorted : (List.insertionSort strLe
      ((ss.foldl insertSeries []).map Prod.fst)).Pairwise strLe :=
    List.sorted_insertionSort strLe _
  have hnodup : (List.insertionSort strLe
      ((ss.foldl insertSeries []).map Prod.fst)).Nodup :=
    ((List.perm_insertionSort strLe _).nodup_iff).mpr
      (nodup_keys_foldl_insertSeries ss [] List.nodup_nil)
  apply List.pairwise_map.mpr
  exact (hsorted.and hnodup).imp
    (fun h => strLt_of_strLe_of_ne h.1 h.2)

theorem pairwise_mem_rel {α : Type} {R : α → α → Prop} {l : List α}
    (hp : l.Pairwise R) {a b : α} (ha : a ∈ l) (hb : b ∈ l) :
    a = b ∨ R a b ∨ R b a := by
  induction l with
  | nil => cases ha
  | cons x t ih =>
    rcases List.mem_cons.mp ha with rfl | ha'
    · rcases List.mem_cons.mp hb with rfl | hb'
      · exact Or.inl rfl
      · exact Or.inr (Or.inl ((List.pairwise_cons.mp hp).1 _ hb'))
    · rcases List.mem_cons.mp hb with rfl | hb'
      · exact Or.inr (Or.inr ((List.pairwise_cons.mp hp).1 _ ha'))
      · exact ih (List.pairwise_cons.mp hp).2 ha' hb'

theorem buildCombinedSeries_eq_combinePerDay
    (pbb : List (String × List Printing))
    (pbi : List (String × List PricePoint)) (b : String) :
    buildCombinedSeries pbb pbi b =
      combinePerDay ((printingsFor pbb b).map (seriesFor pbi)) := by
  unfold buildCombinedSeries combinePerDay printingsFor seriesFor
  rw [List.foldl_map]

instance : IsAntisymm PricePoint (fun a b => strLt a.date b.date) :=
  ⟨fun _ _ h₁ h₂ => (strLt_asymm h₁ h₂).elim⟩

theorem combinePerDay_congr {ss₁ ss₂ : List (List PricePoint)}
    (h : ∀ pt : PricePoint, pt ∈ ss₁.flatten ↔ pt ∈ ss₂.flatten) :
    combinePerDay ss₁ = combinePerDay ss₂ := by
  have hmem : ∀ c : PricePoint, c ∈ combinePerDay ss₁ ↔ c ∈ combinePerDay ss₂ := by
    intro c
    rw [combinePerDay_mem_iff, combinePerDay_mem_iff, bestAt_congr h]
  have hp₁ := combinePerDay_pairwise ss₁
  have hp₂ := combinePerDay_pairwise ss₂
  have hn₁ : (combinePerDay ss₁).Nodup :=
    hp₁.imp fun hab he => strLt_ne hab (congrArg PricePoint.date he)
  have hn₂ : (combinePerDay ss₂).Nodup :=
    hp₂.imp fun hab he => strLt_ne hab (congrArg PricePoint.date he)
  exact List.eq_of_perm_of_sorted
    ((List.perm_ext_iff_of_nodup hn₁ hn₂).mpr hmem) hp₁ hp₂

/-- C1: for every base name and every state of the printing index and the
price map, each date occurring in some printing's series of that base name
appears in `buildCombinedSeries`, exactly once, with the maximum price
observed for that date across those printings; the points come in strictly
ascending date order (hence no duplicate dates); and when the base name
has no printings, or its printings have no points, the result is the empty
list. -/
theorem buildCombinedSeries_max_per_day
    (pbb : List (String × List Printing))
    (pbi : List (String × List PricePoint)) (b : String) :
    (∀ d : String, (∃ pt ∈ basePoints pbb pbi b, pt.date = d) ↔
      ∃ c ∈ buildCombinedSeries pbb pbi b, c.date = d) ∧
    (∀ c₁ ∈ buildCombinedSeries pbb pbi b,
      ∀ c₂ ∈ buildCombinedSeries pbb pbi b, c₁.date = c₂.date → c₁ = c₂) ∧
    (∀ c ∈ buildCombinedSeries pbb pbi b,
      (∃ pt ∈ basePoints pbb pbi b, pt.date = c.date ∧ pt.price = c.price) ∧
      ∀ pt ∈ basePoints pbb pbi b, pt.date = c.date → pt.price ≤ c.price) ∧
    (buildCombinedSeries pbb pbi b).Pairwise
      (fun a c => strLt a.date c.date) ∧
    (basePoints pbb pbi b = [] → buildCombinedSeries pbb pbi b = []) := by
  have hb := buildCombinedSeries_eq_combinePerDay pbb pbi b
  have hflat : ((printingsFor pbb b).map (seriesFor pbi)).flatten =
      basePoints pbb pbi b := rfl
  refine ⟨?_, ?_, ?_, ?_, ?_⟩
  · intro d
    constructor
    · rintro ⟨pt, hpt, hptd⟩
      have hne : bestAt (basePoints pbb pbi b) d ≠ none := by
        intro h0
        exact (bestAt_eq_none_iff _ _).mp h0 pt hpt hptd
      rcases Option.ne_none_iff_exists'.mp hne with ⟨q, hq⟩
      refine ⟨⟨d, q⟩, ?_, rfl⟩
      rw [hb, combinePerDay_mem_iff, hflat]
      exact hq
    · rintro ⟨c, hc, hcd⟩
      rw [hb, combinePerDay_mem_iff, hflat] at hc
      obtain ⟨⟨w, hw, hwd, _⟩, _⟩ :=
        (bestAt_eq_some_iff _ _ _).mp hc
      exact ⟨w, hw, hwd.trans hcd⟩
  · intro c₁ h₁ c₂ h₂ hdate
    rw [hb] at h₁ h₂
    rcases pairwise_mem_rel (combinePerDay_pairwise _) h₁ h₂ with h | h | h
    · exact h
    · exact absurd hdate (strLt_ne h)
    · exact absurd hdate.symm (strLt_ne h)
  · intro c hc
    rw [hb, combinePerDay_mem_iff, hflat] at hc
    obtain ⟨⟨w, hw, hwd, hwq⟩, hub⟩ := (bestAt_eq_some_iff _ _ _).mp hc
    exact ⟨⟨w, hw, hwd, hwq⟩, hub⟩
  · rw [hb]
    exact combinePerDay_pairwise _
  · intro hempty
    rw [hb]
    rw [List.eq_nil_iff_forall_not_mem]
    intro c hc
    rw [combinePerDay_mem_iff, hflat, hempty] at hc
    exact Option.noConfusion hc

/-- C9: `buildCombinedSeries` is invariant under reordering its input
printings — permuting the base name's printings list, and the points
within each printing's series, leaves the combined series unchanged. -/
theorem buildCombinedSeries_reorder_invariant
    (pbb₁ pbb₂ : List (String × List Printing))
    (pbi₁ pbi₂ : List (String × List PricePoint)) (b : String)
    (hp : (printingsFor pbb₁ b).Perm (printingsFor pbb₂ b))
    (hs : ∀ p ∈ printingsFor pbb₁ b,
      (seriesFor pbi₁ p).Perm (seriesFor pbi₂ p)) :
    buildCombinedSeries pbb₁ pbi₁ b = buildCombinedSeries pbb₂ pbi₂ b := by
  rw [buildCombinedSeries_eq_combinePerDay, buildCombinedSeries_eq_combinePerDay]
  apply combinePerDay_congr
  intro pt
  simp only [List.mem_flatten, List.mem_map]
  constructor
  · rintro ⟨s, ⟨p, hpmem, rfl⟩, hpt⟩
    exact ⟨seriesFor pbi₂ p, ⟨p, hp.mem_iff.mp hpmem, rfl⟩,
      (hs p hpmem).mem_iff.mp hpt⟩
  · rintro ⟨s, ⟨p, hpmem, rfl⟩, hpt⟩
    have hpmem₁ : p ∈ printingsFor pbb₁ b := hp.mem_iff.mpr hpmem
    exact ⟨seriesFor pbi₁ p, ⟨p, hpmem₁, rfl⟩,
      (hs p hpmem₁).mem_iff.mpr hpt⟩

/-- C9 witness: swapping the two printings of "Foo" and reversing each
printing's series leaves the combined series unchanged. -/
theorem buildCombinedSeries_reorder_invariant_witness :
    buildCombinedSeries
        [("Foo", [⟨"A1", "Foo", none, none, none, none, "A1"⟩,
                  ⟨"A2", "Foo", none, none, none, none, "A2"⟩])]
        [("A1", [⟨"2024-01-01", 10⟩, ⟨"2024-01-08", 12⟩]),
         ("A2", [⟨"2024-01-01", 9⟩, ⟨"2024-01-08", 15⟩])] "Foo" =
      buildCombinedSeries
        [("Foo", [⟨"A2", "Foo", none, none, none, none, "A2"⟩,
                  ⟨"A1", "Foo", none, none, none, none, "A1"⟩])]
        [("A1", [⟨"2024-01-08", 12⟩, ⟨"2024-01-01", 10⟩]),
         ("A2", [⟨"2024-01-08", 15⟩, ⟨"2024-01-01", 9⟩])] "Foo" :=
  buildCombinedSeries_reorder_invariant _ _ _ _ "Foo" (by decide) (by decide)

/-! ### Helper lemmas: movers -/

theorem moverFor_eq_some {pbb : List (String × List Printing)}
    {pbi : List (String × List PricePoint)} {b : String} {m : Mover}
    (h : moverFor pbb pbi b = some m) :
    m.baseName = b := by
  simp only [moverFor] at h
  cases hsl : seriesLast (buildCombinedSeries pbb pbi b) with
  | none =>
    simp only [hsl] at h
    exact Option.noConfusion h
  | some lp =>
    simp only [hsl] at h
    cases hsv : seriesValueAtOrBefore (buildCombinedSeries pbb pbi b)
        (isoMinusDays lp.date 7) with
    | none =>
      simp only [hsv] at h
      exact Option.noConfusion h
    | some sv =>
      simp only [hsv] at h
      have := Option.some.inj h
      rw [← this]

theorem moverFor_eq_none_of_empty {pbb : List (String × List Printing)}
    {pbi : List (String × List PricePoint)} {b : String}
    (h : buildCombinedSeries pbb pbi b = []) : moverFor pbb pbi b = none := by
  simp only [moverFor]
  rw [show seriesLast (buildCombinedSeries pbb pbi b) = none from by
    rw [h]; rfl]

theorem moverFor_eq_none_of_no_start {pbb : List (String × List Printing)}
    {pbi : List (String × List PricePoint)} {b : String} {lp : PricePoint}
    (hl : seriesLast (buildCombinedSeries pbb pbi b) = some lp)
    (hv : seriesValueAtOrBefore (buildCombinedSeries pbb pbi b)
      (isoMinusDays lp.date 7) = none) :
    moverFor pbb pbi b = none := by
  simp only [moverFor]
  rw [hl]
  show (match seriesValueAtOrBefore (buildCombinedSeries pbb pbi b)
      (isoMinusDays lp.date 7) with
    | none => none
    | some startVal => some (⟨b, isoMinusDays lp.date 7, lp.date, startVal,
        lp.price, lp.price - startVal, pctChange startVal lp.price⟩ : Mover))
    = none
  rw [hv]

/-- C2: every gainer has `delta > 0`, gainers are sorted by descending
delta and truncated to `limit`; every loser has `delta < 0`, losers are
sorted by ascending delta (most negative first) and truncated to `limit`;
a candidate with `delta = 0` appears in neither list; and a base name
whose combined series is empty, or that has no point on or before the date
seven days before its last point, appears in neither list. -/
theorem computeMovers7d_spec (pbb : List (String × List Printing))
    (pbi : List (String × List PricePoint)) (bases : List String)
    (limit : Nat) :
    (∀ m ∈ (computeMovers7d pbb pbi bases limit).1, 0 < m.delta) ∧
    (computeMovers7d pbb pbi bases limit).1.Pairwise
      (fun a c => c.delta ≤ a.delta) ∧
    (computeMovers7d pbb pbi bases limit).1.length ≤ limit ∧
    (∀ m ∈ (computeMovers7d pbb pbi bases limit).2, m.delta < 0) ∧
    (computeMovers7d pbb pbi bases limit).2.Pairwise
      (fun a c => a.delta ≤ c.delta) ∧
    (computeMovers7d pbb pbi bases limit).2.length ≤ limit ∧
    (∀ m : Mover, m.delta = 0 →
      m ∉ (computeMovers7d pbb pbi bases limit).1 ∧
      m ∉ (computeMovers7d pbb pbi bases limit).2) ∧
    (∀ b : String,
      (buildCombinedSeries pbb pbi b = [] ∨
       ∃ lp, seriesLast (buildCombinedSeries pbb pbi b) = some lp ∧
         seriesValueAtOrBefore (buildCombinedSeries pbb pbi b)
           (isoMinusDays lp.date 7) = none) →
      (∀ m ∈ (computeMovers7d pbb pbi bases limit).1, m.baseName ≠ b) ∧
      (∀ m ∈ (computeMovers7d pbb pbi bases limit).2, m.baseName ≠ b)) := by
  have hg1 : (computeMovers7d pbb pbi bases limit).1 =
      (List.insertionSort gainOrder
        ((bases.filterMap (moverFor pbb pbi)).filter
          (fun m => decide (0 < m.delta)))).take limit := rfl
  have hl1 : (computeMovers7d pbb pbi bases limit).2 =
      (List.insertionSort loseOrder
        ((bases.filterMap (moverFor pbb pbi)).filter
          (fun m => decide (m.delta < 0)))).take limit := rfl
  have hg_movers : ∀ m ∈ (computeMovers7d pbb pbi bases limit).1,
      0 < m.delta ∧ m ∈ bases.filterMap (moverFor pbb pbi) := by
    intro m hm
    rw [hg1] at hm
    have hm2 := List.take_subset limit _ hm
    have hm3 := (List.perm_insertionSort gainOrder _).mem_iff.mp hm2
    have hm4 := List.mem_filter.mp hm3
    exact ⟨of_decide_eq_true hm4.2, hm4.1⟩
  have hl_movers : ∀ m ∈ (computeMovers7d pbb pbi bases limit).2,
      m.delta < 0 ∧ m ∈ bases.filterMap (moverFor pbb pbi) := by
    intro m hm
    rw [hl1] at hm
    have hm2 := List.take_subset limit _ hm
    have hm3 := (List.perm_insertionSort loseOrder _).mem_iff.mp hm2
    have hm4 := List.mem_filter.mp hm3
    exact ⟨of_decide_eq_true hm4.2, hm4.1⟩
  refine ⟨fun m hm => (hg_movers m hm).1, ?_, ?_,
    fun m hm => (hl_movers m hm).1, ?_, ?_, ?_, ?_⟩
  · rw [hg1]
    exact (List.Pairwise.sublist (List.take_sublist _ _)
      (List.sorted_insertionSort gainOrder _)).imp (fun h => h)
  · rw [hg1]
    exact List.length_take_le _ _
  · rw [hl1]
    exact (List.Pairwise.sublist (List.take_sublist _ _)
      (List.sorted_insertionSort loseOrder _)).imp (fun h => h)
  · rw [hl1]
    exact List.length_take_le _ _
  · intro m hzero
    constructor
    · intro hm
      have := (hg_movers m hm).1
      rw [hzero] at this
      exact lt_irrefl 0 this
    · intro hm
      have := (hl_movers m hm).1
      rw [hzero] at this
      exact lt_irrefl 0 this
  · intro b hskip
    have hnone : moverFor pbb pbi b = none := by
      rcases hskip with h | ⟨lp, hl, hv⟩
      · exact moverFor_eq_none_of_empty h
      · exact moverFor_eq_none_of_no_start hl hv
    have hnotin : ∀ m ∈ bases.filterMap (moverFor pbb pbi),
        m.baseName ≠ b := by
      intro m hm heq
      obtain ⟨b', _, hb'⟩ := List.mem_filterMap.mp hm
      have hbase := moverFor_eq_some hb'
      rw [hbase] at heq
      rw [heq] at hb'
      rw [hnone] at hb'
      exact Option.noConfusion hb'
    exact ⟨fun m hm => hnotin m (hg_movers m hm).2,
      fun m hm => hnotin m (hl_movers m hm).2⟩

/-- C8 counterexample: malformed date strings produce no validation
failure.  A shape-valid but out-of-range date is silently normalised to a
different calendar date (month 13 of 2024 becomes January 2025); a
non-numeric one becomes the garbage string "NaN-NaN-NaN" in the ordinary
result channel; and `computeStats` consumes such garbage silently — a
single point with date "AAA" compares `<=` "NaN-NaN-NaN" and yields
`change7d = 0` instead of any reported failure. -/
theorem isoMinusDays_no_validation_cex :
    isoMinusDays "2024-13-01" 0 = "2025-01-01" ∧
    isoMinusDays "not-a-date" 7 = "NaN-NaN-NaN" ∧
    (computeStats [⟨"AAA", 5⟩]).change7d = some 0 := by
  refine ⟨by decide, by decide, ?_⟩
  have h := computeStats_eval [⟨"AAA", 5⟩] [⟨"AAA", 5⟩] ⟨"AAA", 5⟩
      (some ⟨"AAA", 5⟩) (some 5) (by decide) (by decide) (by decide)
      (by decide) (by decide)
  rw [h]
  show some ((5 : ℚ) - 5) = some 0
  norm_num

/-- C8 (amended): the date utilities report no distinct input-validation
failure.  Whenever `parseDateISO` yields an Invalid Date (non-numeric
fragments, fewer than three fragments, or a clipped time value),
`isoMinusDays` returns the garbage string "NaN-NaN-NaN" through its normal
result channel; out-of-range component values are not even failures — they
parse, silently normalised to a different date (see the counterexample). -/
theorem isoMinusDays_invalid_returns_nan (s : String) (d : Int)
    (h : parseDateISO s = none) : isoMinusDays s d = "NaN-NaN-NaN" := by
  simp only [isoMinusDays, h]

/-- C8 witness. -/
theorem isoMinusDays_invalid_returns_nan_witness :
    isoMinusDays "hello" 7 = "NaN-NaN-NaN" :=
  isoMinusDays_invalid_returns_nan "hello" 7 (by decide)

/-! ### Helper lemmas: the label regex -/

theorem getLastD_default_irrel {α : Type} (l : List α) (d₁ d₂ : α)
    (h : l ≠ []) : l.getLastD d₁ = l.getLastD d₂ := by
  cases l with
  | nil => exact absurd rfl h
  | cons a t => rw [List.getLastD_cons, List.getLastD_cons]

theorem getLastD_drop {α : Type} (l : List α) (k : Nat) (d : α)
    (h : k < l.length) : (l.drop k).getLastD d = l.getLastD d := by
  induction l generalizing k d with
  | nil => simp at h
  | cons a t ih =>
    cases k with
    | zero => rfl
    | succ k =>
      rw [show (a :: t).drop (k + 1) = t.drop k from rfl, List.getLastD_cons]
      have hk : k < t.length := by
        simpa using Nat.lt_of_succ_lt_succ (by simpa using h)
      have ht : t ≠ [] := by
        intro h0
        rw [h0] at hk
        simp at hk
      rw [ih k d hk]
      exact getLastD_default_irrel t d a ht

theorem takeWhile_append_lt (p : Char → Bool) (u v : List Char)
    (hne : u ≠ []) (hl : p (u.getLastD ' ') = false) :
    (u ++ v).takeWhile p = u.takeWhile p ∧
      (u.takeWhile p).length < u.length := by
  induction u with
  | nil => exact absurd rfl hne
  | cons a t ih =>
    rw [List.getLastD_cons] at hl
    cases t with
    | nil =>
      have hpa : p a = false := hl
      constructor
      · rw [List.cons_append, List.nil_append, List.takeWhile_cons,
          List.takeWhile_cons, if_neg (by simp [hpa]), if_neg (by simp [hpa])]
      · rw [List.takeWhile_cons, if_neg (by simp [hpa])]
        simp
    | cons b t' =>
      have hbt : (b :: t') ≠ [] := by simp
      have hl' : p ((b :: t').getLastD ' ') = false := by
        rw [getLastD_default_irrel (b :: t') ' ' a hbt]
        exact hl
      obtain ⟨ih1, ih2⟩ := ih hbt hl'
      by_cases hpa : p a = true
      · constructor
        · rw [List.cons_append, List.takeWhile_cons, List.takeWhile_cons,
            if_pos hpa, if_pos hpa, ih1]
        · rw [List.takeWhile_cons, if_pos hpa]
          simpa using Nat.succ_lt_succ ih2
      · constructor
        · rw [List.cons_append, List.takeWhile_cons, List.takeWhile_cons,
            if_neg hpa, if_neg hpa]
        · rw [List.takeWhile_cons, if_neg hpa]
          simp

theorem matchOk_eq_false_of_lt (n rest : List Char) (k : Nat)
    (hk2 : k < n.length)
    (hlast : isJsWs (n.getLastD ' ') = false)
    (hnp : '(' ∉ n) :
    matchOk (n ++ '(' :: rest) k = false := by
  have hkle : k ≤ n.length := le_of_lt hk2
  have hdrop : (n ++ '(' :: rest).drop k = n.drop k ++ '(' :: rest := by
    rw [List.drop_append_eq_append_drop, Nat.sub_eq_zero_of_le hkle,
      List.drop_zero]
  have hndk : n.drop k ≠ [] := by
    intro h0
    have hlen := List.length_drop k n
    rw [h0] at hlen
    simp at hlen
    omega
  have hlast' : isJsWs ((n.drop k).getLastD ' ') = false := by
    rw [getLastD_drop n k ' ' hk2]
    exact hlast
  obtain ⟨htw, hlt⟩ := takeWhile_append_lt isJsWs (n.drop k) ('(' :: rest)
    hndk hlast'
  have hjlt : k + (((n ++ '(' :: rest).drop k).takeWhile isJsWs).length <
      n.length := by
    rw [hdrop, htw]
    have hlen := List.length_drop k n
    omega
  set j := k + (((n ++ '(' :: rest).drop k).takeWhile isJsWs).length with hj
  have hjle : j ≤ n.length := le_of_lt hjlt
  have hdropj : (n ++ '(' :: rest).drop j = n.drop j ++ '(' :: rest := by
    rw [List.drop_append_eq_append_drop, Nat.sub_eq_zero_of_le hjle,
      List.drop_zero]
  have hnej : n.drop j ≠ [] := by
    intro h0
    have hlen := List.length_drop j n
    rw [h0] at hlen
    simp at hlen
    omega
  obtain ⟨c, hc⟩ : ∃ c, (n.drop j).head? = some c := by
    cases hh : (n.drop j).head? with
    | none => exact absurd (List.head?_eq_none_iff.mp hh) hnej
    | some c => exact ⟨c, rfl⟩
  have hcn : c ∈ n :=
    List.drop_subset j n (List.mem_of_mem_head? (by rw [hc]; rfl))
  have hcne : ¬ c = '(' := fun he => hnp (he ▸ hcn)
  have hfirst : (((n ++ '(' :: rest).drop j).head? == some '(') = false := by
    rw [hdropj, List.head?_append, hc]
    show ((some c).or (some '(') == some '(') = false
    rw [show (some c).or (some '(') = some c from rfl]
    rw [beq_eq_false_iff_ne]
    intro he
    exact hcne (Option.some.inj he)
  simp only [matchOk, ← hj, hfirst, Bool.false_and]

theorem matchOk_eq_true_main (n g w t : List Char)
    (hLTn : ∀ c ∈ n, isLineTerm c = false)
    (hLTg : ∀ c ∈ g, isLineTerm c = false)
    (hLTw : ∀ c ∈ w, isLineTerm c = false)
    (hLTt : ∀ c ∈ t, isLineTerm c = false) :
    matchOk (n ++ '(' :: (g ++ ')' :: (w ++ '(' :: t))) n.length = true := by
  have hdrop : (n ++ '(' :: (g ++ ')' :: (w ++ '(' :: t))).drop n.length =
      '(' :: (g ++ ')' :: (w ++ '(' :: t)) := List.drop_left n _
  have htw : (('(' :: (g ++ ')' :: (w ++ '(' :: t))).takeWhile isJsWs) = [] := by
    rw [List.takeWhile_cons, if_neg (by decide)]
  have hj : n.length + (((n ++ '(' :: (g ++ ')' :: (w ++ '(' :: t))).drop
      n.length).takeWhile isJsWs).length = n.length := by
    rw [hdrop, htw]
    rfl
  have hlen : (n ++ '(' :: (g ++ ')' :: (w ++ '(' :: t))).length =
      n.length + (g.length + w.length + t.length + 3) := by
    simp [List.length_append]
    omega
  simp only [matchOk, hj, Bool.and_eq_true]
  refine ⟨⟨⟨?_, ?_⟩, ?_⟩, ?_⟩
  · rw [hdrop]
    rfl
  · rw [decide_eq_true_eq, hlen]
    omega
  · rw [List.take_left, List.all_eq_true]
    intro c hc
    simp [hLTn c hc]
  · have hdrop1 : (n ++ '(' :: (g ++ ')' :: (w ++ '(' :: t))).drop
        (n.length + 1) = g ++ ')' :: (w ++ '(' :: t) := by
      rw [List.drop_append_eq_append_drop]
      rw [List.drop_eq_nil_of_le (by omega), Nat.add_sub_cancel_left]
      rfl
    rw [hdrop1, List.all_eq_true]
    intro c hc
    rcases List.mem_append.mp hc with h | h
    · simp [hLTg c h]
    · rcases List.mem_cons.mp h with rfl | h
      · decide
      · rcases List.mem_append.mp h with h | h
        · simp [hLTw c h]
        · rcases List.mem_cons.mp h with rfl | h
          · decide
          · simp [hLTt c h]

theorem findSplit_from (core : List Char) (tgt : Nat)
    (h1 : matchOk core tgt = true) (h4 : tgt < core.length) :
    ∀ fuel i, i ≤ tgt → tgt < i + fuel →
      (∀ k, i ≤ k → k < tgt → matchOk core k = false) →
      findSplit core i fuel = some tgt := by
  intro fuel
  induction fuel with
  | zero =>
    intro i hit hlt _
    omega
  | succ fuel ih =>
    intro i hit hlt h2
    rw [show findSplit core i (fuel + 1) =
      (if core.length ≤ i then none
       else if matchOk core i then some i else findSplit core (i + 1) fuel)
      from rfl]
    have hi_lt : i < core.length := lt_of_le_of_lt hit h4
    rw [if_neg (not_le.mpr hi_lt)]
    by_cases hit' : i = tgt
    · subst hit'
      rw [if_pos h1]
    · have hilt : i < tgt := lt_of_le_of_ne hit hit'
      rw [if_neg (by simp [h2 i (le_refl i) hilt]),
        ih (i + 1) hilt (by omega) (fun k hk1 hk2 => h2 k (by omega) hk2)]

theorem parenMatch_two_groups (n g w t : List Char) (hne : n ≠ [])
    (hnp : '(' ∉ n) (hlast : isJsWs (n.getLastD ' ') = false)
    (hLTn : ∀ c ∈ n, isLineTerm c = false)
    (hLTg : ∀ c ∈ g, isLineTerm c = false)
    (hLTw : ∀ c ∈ w, isLineTerm c = false)
    (hLTt : ∀ c ∈ t, isLineTerm c = false) :
    parenMatch (n ++ '(' :: (g ++ ')' :: (w ++ '(' :: (t ++ [')'])))) =
      some (n, g ++ ')' :: (w ++ '(' :: t)) := by
  set core := n ++ '(' :: (g ++ ')' :: (w ++ '(' :: t)) with hcore
  have hlabel : n ++ '(' :: (g ++ ')' :: (w ++ '(' :: (t ++ [')']))) =
      core ++ [')'] := by
    rw [hcore]
    simp
  have hrev : (n ++ '(' :: (g ++ ')' :: (w ++ '(' :: (t ++ [')'])))).reverse.dropWhile
      isJsWs = ')' :: core.reverse := by
    rw [hlabel, List.reverse_append, show ([')'] : List Char).reverse = [')']
      from rfl, List.singleton_append, List.dropWhile_cons, if_neg (by decide)]
  have hne_len : 1 ≤ n.length := by
    cases n with
    | nil => exact absurd rfl hne
    | cons a l => simp
  have hlt_len : n.length < core.length := by
    rw [hcore]
    simp [List.length_append]
  have hfind : findSplit core 1 core.length = some n.length := by
    apply findSplit_from core n.length
      (by rw [hcore]; exact matchOk_eq_true_main n g w t hLTn hLTg hLTw hLTt)
      hlt_len core.length 1 hne_len (by omega)
    intro k hk1 hk2
    rw [hcore]
    exact matchOk_eq_false_of_lt n _ k hk2 hlast hnp
  have hjcore : n.length + ((core.drop n.length).takeWhile isJsWs).length =
      n.length := by
    rw [hcore, List.drop_left n _, List.takeWhile_cons, if_neg (by decide)]
    rfl
  have hdrop1 : core.drop (n.length + 1) = g ++ ')' :: (w ++ '(' :: t) := by
    rw [hcore, List.drop_append_eq_append_drop,
      List.drop_eq_nil_of_le (by omega), Nat.add_sub_cancel_left]
    rfl
  have htake : core.take n.length = n := by
    rw [hcore]
    exact List.take_left n _
  simp only [parenMatch, hrev, List.reverse_reverse, hfind, hjcore,
    if_true, htake, hdrop1]

/-- C5 counterexample: on a label with two top-level parenthetical groups
the parser does NOT use the last group.  The regex captures from the first
`(` to the last `)`: baseName is `"Void"` (text before the FIRST group,
not `"Void (Mirage)"`), and the attribute tokens span both groups, so
`set` becomes `"MIRAGE)"` rather than `"MIR"`. -/
theorem parseLabel_two_groups_cex :
    parseLabel "Void (Mirage) (MIR #1 en foil)" =
      ⟨"Void (Mirage) (MIR #1 en foil)", "Void", some "MIRAGE)", some "1",
       some "en", some "foil", "MIRAGE) #1 en foil"⟩ ∧
    (parseLabel "Void (Mirage) (MIR #1 en foil)").baseName ≠ "Void (Mirage)" ∧
    (parseLabel "Void (Mirage) (MIR #1 en foil)").set ≠ some "MIR" :=
  ⟨by decide, by decide, by decide⟩

/-- C5 (amended): the trailing-parenthetical regex captures from the FIRST
top-level `(` to the last `)`, not the last top-level group.  When no
parenthetical matches, baseName = id = printable = the whole label with
every attribute unset, and parsing is total (never raises).  When a label
has the two-group shape `n(g)w(t)` — `n` nonempty, containing no `(`, not
ending in whitespace, and no line terminators anywhere — the match's
group 1 is `n` (so baseName is `n` trimmed) and the attribute tokens are
drawn from the whole span `g)w(t` between the first `(` and the last `)`,
not from the last group alone. -/
theorem parseLabel_first_open_to_last_close :
    (∀ label : String, parenMatch label.data = none →
      parseLabel label = ⟨label, label, none, none, none, none, label⟩) ∧
    (∀ n g w t : List Char, n ≠ [] → '(' ∉ n →
      isJsWs (n.getLastD ' ') = false →
      (∀ c ∈ n, isLineTerm c = false) → (∀ c ∈ g, isLineTerm c = false) →
      (∀ c ∈ w, isLineTerm c = false) → (∀ c ∈ t, isLineTerm c = false) →
      parseLabel
          (String.mk (n ++ '(' :: (g ++ ')' :: (w ++ '(' :: (t ++ [')']))))) =
        descriptorOfMatch
          (String.mk (n ++ '(' :: (g ++ ')' :: (w ++ '(' :: (t ++ [')'])))))
          n (g ++ ')' :: (w ++ '(' :: t))) := by
  constructor
  · intro label h
    simp only [parseLabel, h]
  · intro n g w t h1 h2 h3 h4 h5 h6 h7
    have hm' : parenMatch
        (String.mk (n ++ '(' :: (g ++ ')' :: (w ++ '(' :: (t ++ [')']))))).data =
        some (n, g ++ ')' :: (w ++ '(' :: t)) :=
      parenMatch_two_groups n g w t h1 h2 h3 h4 h5 h6 h7
    simp only [parseLabel, hm']
